import Mathlib

/-!
A verification development for the ANSI log renderer of `src/dbg/console.h`
(`FastAnsiParser::RenderAnsiText` and its helpers).

The C++ code is embedded shallowly:

* byte buffers become `List ℕ` (a byte is its unsigned value, `0 ≤ b < 256`;
  the source's signed-`char` comparisons all target values below 128, where
  signed and unsigned agree);
* the `float` pen coordinates, text widths and line height become `ℚ`
  (none of the properties verified here depend on floating-point rounding);
* the ambient GUI services (`ImGui::CalcTextSize`, `GetTextLineHeight`,
  `GetCursorScreenPos`) become an explicit record `Cfg` of a measurement
  function, a line height and an origin;
* each `drawList->AddText(pos, color, begin, end)` call becomes an emitted
  `Run` value, collected in order;
* the escape-code loop `while (ptr < end && *ptr != 'm')` of the source does
  not always terminate (it never advances past a byte that is neither an
  ASCII digit nor `;` nor `m`), so it is embedded as the fueled `escLoop`,
  which returns `none` when the fuel runs out.  An iteration of the source
  loop either consumes at least one input byte, or consumes none — and in the
  latter case the state `(rest, color, bold)` is reproduced exactly, so the
  source loop never exits.  Hence fuel `rest.length + 1` suffices for every
  terminating execution of the source loop, and `escLoop (rest.length + 1)`
  returns `some` exactly on the inputs where the source loop terminates.
  The outer scan `mainLoop` consumes at least one byte per iteration, so fuel
  `input.length + 1` is likewise exact for it.
-/

namespace Console

/-- 32-bit RGBA colour packing, the GUI library's `IM_COL32(R,G,B,A)` macro:
`(a << 24) | (b << 16) | (g << 8) | r` in unsigned 32-bit arithmetic. -/
def u32 (n : ℕ) : ℕ := n % 2 ^ 32

/-- `IM_COL32` from the source: pack R, G, B, A into one 32-bit value. -/
def IM_COL32 (r g b a : ℕ) : ℕ :=
  u32 (u32 a * 2 ^ 24) ||| u32 (u32 b * 2 ^ 16) ||| u32 (u32 g * 2 ^ 8) ||| u32 r

/-- The fixed 16-entry palette `FastAnsiParser::ANSI_COLORS`. -/
def ANSI_COLORS : List ℕ :=
  [IM_COL32 40 40 40 255,     -- 0: Black
   IM_COL32 220 80 80 255,    -- 1: Dark Red
   IM_COL32 80 220 80 255,    -- 2: Dark Green
   IM_COL32 220 220 80 255,   -- 3: Dark Yellow
   IM_COL32 80 80 220 255,    -- 4: Dark Blue
   IM_COL32 220 80 220 255,   -- 5: Dark Magenta
   IM_COL32 80 220 220 255,   -- 6: Dark Cyan
   IM_COL32 220 220 220 255,  -- 7: Light Gray
   IM_COL32 160 160 160 255,  -- 8: Dark Gray
   IM_COL32 255 120 120 255,  -- 9: Bright Red
   IM_COL32 120 255 120 255,  -- 10: Bright Green
   IM_COL32 255 255 120 255,  -- 11: Bright Yellow
   IM_COL32 120 120 255 255,  -- 12: Bright Blue
   IM_COL32 255 120 255 255,  -- 13: Bright Magenta
   IM_COL32 120 255 255 255,  -- 14: Bright Cyan
   IM_COL32 255 255 255 255]  -- 15: White

/-- `FastAnsiParser::DEFAULT_COLOR` (opaque white). -/
def DEFAULT_COLOR : ℕ := IM_COL32 255 255 255 255

/-- `parseAnsiCode` from the source: consume a maximal run of ASCII digits,
accumulating `result = result * 10 + digit`; stop at the first non-digit.
Returns the parsed value together with the unconsumed remainder.  The C `int`
accumulator is modelled as `ℕ` (it starts at 0 and only grows, and the codes
exercised here are far below any overflow). -/
def parseAnsiCode : List ℕ → ℕ → ℕ × List ℕ
  | [], acc => (acc, [])
  | b :: rest, acc =>
    if 48 ≤ b ∧ b ≤ 57 then parseAnsiCode rest (acc * 10 + (b - 48))
    else (acc, b :: rest)

/-- `ansi256ToRgb` from the source: 0–15 use the palette table, 16–231 the
6×6×6 colour cube with axis step 51, everything else the grayscale formula
`8 + (code - 232) * 10` — with no upper-range check. -/
def ansi256ToRgb (code : ℕ) : ℕ :=
  if code < 16 then ANSI_COLORS.getD code 0
  else if code < 232 then
    IM_COL32 ((code - 16) / 36 * 51) ((code - 16) % 36 / 6 * 51)
      ((code - 16) % 6 * 51) 255
  else
    IM_COL32 (8 + (code - 232) * 10) (8 + (code - 232) * 10)
      (8 + (code - 232) * 10) 255

/-- The ambient services `RenderAnsiText` reads from the GUI:
`measure` is `ImGui::CalcTextSize(begin, end).x` on a byte span,
`lineHeight` is `GetTextLineHeight()`, and `(startX, startY)` is the
caller-supplied origin `GetCursorScreenPos()`. -/
structure Cfg where
  measure : List ℕ → ℚ
  lineHeight : ℚ
  startX : ℚ
  startY : ℚ

/-- One `drawList->AddText(pos, color, begin, end)` call: the absolute pen
position at emission, the packed colour, and the emitted byte span.  These are
exactly the arguments the source passes to the sink. -/
structure Run where
  x : ℚ
  y : ℚ
  color : ℕ
  text : List ℕ
deriving DecidableEq

/-- The flush step that precedes every control character and ends a segment:
`if (current > segStart) { AddText(pos, color, segStart, current); pos.x += width; }`.
Returns the emitted runs (none when the pending span is empty) and the new
pen x. -/
def flushRun (cfg : Cfg) (color : ℕ) (pending : List ℕ) (x y : ℚ) :
    List Run × ℚ :=
  if pending = [] then ([], x)
  else ([⟨x, y, color, pending⟩], x + cfg.measure pending)

/-- C truncation of a real value to `int` (toward zero), used for the
`(int)(currentColumn / tabWidth)` cast in the tab handler. -/
def truncQ (q : ℚ) : ℤ := if q < 0 then -⌊-q⌋ else ⌊q⌋

/-- The `renderTextSegment` lambda of the source: walk one literal segment,
splitting at control characters.  `pending` is the span
`[segStart, current)`; the pen is `(x, y)`.  Handles `\n`, `\r`, `\t`, `\b`,
skips other bytes below 32 except ESC (27), and accumulates everything else
(ESC included) into the pending span. -/
def segLoop (cfg : Cfg) (color : ℕ) :
    List ℕ → List ℕ → ℚ → ℚ → List Run × ℚ × ℚ
  | [], pending, x, y =>
    ((flushRun cfg color pending x y).1, (flushRun cfg color pending x y).2, y)
  | b :: rest, pending, x, y =>
    if b = 10 then
      -- newline: flush, then pen to line start and down one line
      let f := flushRun cfg color pending x y
      let next := segLoop cfg color rest [] cfg.startX (y + cfg.lineHeight)
      (f.1 ++ next.1, next.2)
    else if b = 13 then
      -- carriage return: flush, then pen x to line start
      let f := flushRun cfg color pending x y
      let next := segLoop cfg color rest [] cfg.startX y
      (f.1 ++ next.1, next.2)
    else if b = 9 then
      -- tab: flush, then advance to the next multiple-of-8-characters tab stop
      let f := flushRun cfg color pending x y
      let cw := cfg.measure [65]
      let nts : ℚ := ((truncQ ((f.2 - cfg.startX) / (cw * 8)) + 1 : ℤ) : ℚ) * (cw * 8)
      let next := segLoop cfg color rest [] (cfg.startX + nts) y
      (f.1 ++ next.1, next.2)
    else if b = 8 then
      -- backspace: flush, then pen x back one character, clamped at line start
      let f := flushRun cfg color pending x y
      let next := segLoop cfg color rest [] (max cfg.startX (f.2 - cfg.measure [65])) y
      (f.1 ++ next.1, next.2)
    else if b < 32 ∧ b ≠ 27 then
      -- other control characters: flush and skip
      let f := flushRun cfg color pending x y
      let next := segLoop cfg color rest [] f.2 y
      (f.1 ++ next.1, next.2)
    else
      segLoop cfg color rest (pending ++ [b]) x y

/-- `if (ptr < end && *ptr == ';') ++ptr;` — the semicolon skip ending each
iteration of the escape-code loop. -/
def skipSemi (l : List ℕ) : List ℕ := if l.head? = some 59 then l.tail else l

/-- One iteration of the source's escape-code loop body: parse one integer
code, apply it to `(color, bold)`, handle the `38;5;N` / `38;2;R;G;B`
extensions, then skip a trailing `;`.  Returns the remaining input and the
updated style. -/
def escBody (rest : List ℕ) (color : ℕ) (bold : Bool) : List ℕ × ℕ × Bool :=
  let p := parseAnsiCode rest 0
  let code := p.1
  let r1 := p.2
  if code = 0 then (skipSemi r1, DEFAULT_COLOR, false)
  else if code = 1 then (skipSemi r1, color, true)
  else if code = 22 then (skipSemi r1, color, false)
  else if 30 ≤ code ∧ code ≤ 37 then
    (skipSemi r1, ANSI_COLORS.getD (code - 30) 0, bold)
  else if 90 ≤ code ∧ code ≤ 97 then
    (skipSemi r1, ANSI_COLORS.getD (code - 90 + 8) 0, bold)
  else if code = 38 ∧ r1.head? = some 59 then
    let p3 := parseAnsiCode r1.tail 0
    let ty := p3.1
    let r3 := p3.2
    if ty = 5 ∧ r3.head? = some 59 then
      let p5 := parseAnsiCode r3.tail 0
      (skipSemi p5.2, ansi256ToRgb p5.1, bold)
    else if ty = 2 then
      if r3.head? = some 59 then
        let p4 := parseAnsiCode r3.tail 0
        if p4.2.head? = some 59 then
          let p6 := parseAnsiCode p4.2.tail 0
          if p6.2.head? = some 59 then
            let p7 := parseAnsiCode p6.2.tail 0
            (skipSemi p7.2, IM_COL32 p4.1 p6.1 p7.1 255, bold)
          else (skipSemi p6.2, color, bold)
        else (skipSemi p4.2, color, bold)
      else (skipSemi r3, color, bold)
    else (skipSemi r3, color, bold)
  else (skipSemi r1, color, bold)

/-- The source's escape-code loop `while (ptr < end && *ptr != 'm') { ... }`,
fueled.  `none` means the fuel ran out; see the header comment — with fuel
`rest.length + 1` this happens exactly when the source loop runs forever. -/
def escLoop : ℕ → List ℕ → ℕ → Bool → Option (List ℕ × ℕ × Bool)
  | 0, _, _, _ => none
  | fuel + 1, rest, color, bold =>
    match rest with
    | [] => some ([], color, bold)
    | b :: _ =>
      if b = 109 then some (rest, color, bold)
      else
        let s := escBody rest color bold
        escLoop fuel s.1 s.2.1 s.2.2

/-- `if (ptr < end && *ptr == 'm') ++ptr;` — skip the terminating `m` after
the escape-code loop exits. -/
def stripM (l : List ℕ) : List ℕ := if l.head? = some 109 then l.tail else l

/-- The outer scan of `RenderAnsiText`: `rest` is `[ptr, end)`, `seg` is the
pending literal span `[segmentStart, ptr)`.  On `ESC [` the pending span is
rendered and the escape-code loop runs; any other byte joins the pending
span.  Fueled: one unit per outer iteration; `none` propagates the
non-termination of the escape-code loop. -/
def mainLoop (cfg : Cfg) :
    ℕ → List ℕ → List ℕ → ℕ → Bool → ℚ → ℚ → Option (List Run × ℚ × ℚ)
  | 0, _, _, _, _, _, _ => none
  | fuel + 1, rest, seg, color, bold, x, y =>
    match rest with
    | [] =>
      if seg = [] then some ([], x, y)
      else some (segLoop cfg color seg [] x y)
    | b :: rest' =>
      if b = 27 ∧ rest'.head? = some 91 then
        let flushed := if seg = [] then (([], x, y) : List Run × ℚ × ℚ)
                       else segLoop cfg color seg [] x y
        match escLoop (rest'.tail.length + 1) rest'.tail color bold with
        | none => none
        | some s =>
          match mainLoop cfg fuel (stripM s.1) [] s.2.1 s.2.2
                  flushed.2.1 flushed.2.2 with
          | none => none
          | some out => some (flushed.1 ++ out.1, out.2)
      else mainLoop cfg fuel rest' (seg ++ [b]) color bold x y

/-- The trailing `\n` / `\r\n` / `\r` cursor correction at the end of
`RenderAnsiText` (lines 247–257 of the source), applied to the final pen
position only. -/
def endCorrect (cfg : Cfg) (input : List ℕ) (x y : ℚ) : ℚ × ℚ :=
  if input.getLast? = some 10 then
    (cfg.startX,
     if input.length = 1 ∨ input.dropLast.getLast? ≠ some 13 then
       y + cfg.lineHeight
     else y)
  else if input.getLast? = some 13 then (cfg.startX, y)
  else (x, y)

/-- `FastAnsiParser::RenderAnsiText`: run the scan from the caller's origin
with the default style, then apply the end-of-buffer cursor correction.
`none` reproduces the source's non-termination (see header comment). -/
def renderAnsiText (cfg : Cfg) (input : List ℕ) :
    Option (List Run × ℚ × ℚ) :=
  (mainLoop cfg (input.length + 1) input [] DEFAULT_COLOR false
      cfg.startX cfg.startY).map
    (fun out => (out.1, endCorrect cfg input out.2.1 out.2.2))

/-- A concrete configuration for witnesses and counterexamples: every byte is
one unit wide, lines are one unit tall, origin `(0, 0)`. -/
def cfg0 : Cfg where
  measure := fun s => (s.length : ℚ)
  lineHeight := 1
  startX := 0
  startY := 0

/-- Bytes that `renderTextSegment` passes through into emitted spans:
printable bytes and the lone ESC. -/
def okByte (b : ℕ) : Prop := 32 ≤ b ∨ b = 27

instance (b : ℕ) : Decidable (okByte b) := by unfold okByte; infer_instance

/-- No ESC byte immediately followed by `[` anywhere in the list. -/
def noEB (l : List ℕ) : Prop := l.Chain' (fun a b => ¬(a = 27 ∧ b = 91))

instance (l : List ℕ) : Decidable (noEB l) := by unfold noEB; infer_instance

end Console

namespace Console

/-! ### Helper lemmas -/

theorem getLast?_mem_list : ∀ {l : List ℕ} {a : ℕ}, l.getLast? = some a → a ∈ l
  | [c], a, h => by
    simp only [List.getLast?_singleton, Option.some.injEq] at h
    simp [h]
  | b :: c :: t, a, h => by
    rw [List.getLast?_cons_cons] at h
    exact List.mem_cons_of_mem b (getLast?_mem_list h)

/-! ### Claim theorems -/

/-- Claim C1 (code_bug evidence): the escape-code loop of the source does
not always terminate.  At a byte that is neither an ASCII digit nor `;` nor
`m` (here `'a'` = 97) one loop iteration consumes no input and the loop runs
forever: `escLoop` returns `none` for every amount of fuel, and the whole
render of `"\x1b[a"` therefore diverges (modelled as `none`). -/
theorem escape_loop_diverges :
    (∀ (fuel color : ℕ) (bold : Bool), escLoop fuel [97] color bold = none) ∧
    renderAnsiText cfg0 [27, 91, 97] = none := by
  constructor
  · intro fuel
    induction fuel with
    | zero => intro color bold; rfl
    | succ n ih =>
      intro color bold
      have h : escLoop (n + 1) [97] color bold = escLoop n [97] DEFAULT_COLOR false := rfl
      rw [h]
      exact ih _ _
  · decide

/-- Claim C2 (counterexample): the sink never receives the bold flag.  After
`ESC [ 1 m` the bold state in effect at the emission of `"x"` is `true`
(first conjunct), yet the complete sequence of sink invocations for
`"\x1b[1mx"` is identical to that for plain `"x"`, where bold is `false` —
so no argument of any sink call carries the bold state. -/
theorem bold_not_forwarded_counterexample :
    escLoop 2 [49, 109] DEFAULT_COLOR false = some ([109], DEFAULT_COLOR, true) ∧
    renderAnsiText cfg0 [27, 91, 49, 109, 120] = renderAnsiText cfg0 [120] := by
  exact ⟨by decide, rfl⟩

/-- Claim C3 (counterexample): the empty sequence `ESC [ m` does *not* reset
the style.  After `"\x1b[31m"` set the colour to palette entry 1, the
sequence `"\x1b[m"` leaves it unchanged: the following `"y"` is still
emitted with palette entry 1, which differs from the default colour. -/
theorem esc_m_no_reset_counterexample :
    renderAnsiText cfg0 [27, 91, 51, 49, 109, 120, 27, 91, 109, 121] =
      some ([⟨0, 0, ANSI_COLORS.getD 1 0, [120]⟩,
             ⟨1, 0, ANSI_COLORS.getD 1 0, [121]⟩], 2, 0) ∧
    ANSI_COLORS.getD 1 0 ≠ DEFAULT_COLOR := by
  constructor
  · have h : renderAnsiText cfg0 [27, 91, 51, 49, 109, 120, 27, 91, 109, 121] =
        some ([⟨0, 0, ANSI_COLORS.getD (31 - 30) 0, [120]⟩,
               ⟨0 + cfg0.measure [120], 0, ANSI_COLORS.getD (31 - 30) 0, [121]⟩],
              0 + cfg0.measure [120] + cfg0.measure [121], 0) := rfl
    rw [h]; norm_num [cfg0]
  · decide

/-- Claim C3 (amended): zero digits immediately before `;` are parsed as
code 0 and reset the style (first conjunct: consuming the `;` restarts the
loop with the default style), but the terminating `m` is tested *before* any
code is parsed, so zero digits immediately before the final `m` apply no
code at all: the loop exits with the style unchanged (second conjunct).
End to end, `"\x1b[31m"` then `"\x1b[;m"` resets (the `;` branch), so the
final `"y"` is emitted with the default style (third conjunct), while by
`esc_m_no_reset_counterexample` a bare `"\x1b[m"` resets nothing. -/
theorem empty_code_semantics :
    (∀ (fuel color : ℕ) (bold : Bool) (rest : List ℕ),
      escLoop (fuel + 1) (59 :: rest) color bold =
        escLoop fuel rest DEFAULT_COLOR false) ∧
    (∀ (fuel color : ℕ) (bold : Bool) (rest : List ℕ),
      escLoop (fuel + 1) (109 :: rest) color bold =
        some (109 :: rest, color, bold)) ∧
    renderAnsiText cfg0 [27, 91, 51, 49, 109, 27, 91, 59, 109, 121] =
      some ([⟨0, 0, DEFAULT_COLOR, [121]⟩], 1, 0) := by
  refine ⟨fun _ _ _ _ => rfl, fun _ _ _ _ => rfl, ?_⟩
  have h : renderAnsiText cfg0 [27, 91, 51, 49, 109, 27, 91, 59, 109, 121] =
      some ([⟨0, 0, DEFAULT_COLOR, [121]⟩], 0 + cfg0.measure [121], 0) := rfl
  rw [h]; norm_num [cfg0]

/-- Claim C4 (counterexample): the empty input contains no ESC byte and no
control character, yet the engine emits zero runs, not one. -/
theorem empty_input_no_run_counterexample :
    renderAnsiText cfg0 [] = some ([], 0, 0) ∧ ([] : List Run).length ≠ 1 := by
  exact ⟨by decide, by decide⟩

/-- Claim C5: 256-colour resolution.  Indices below 16 use the palette
table; 16–231 the 6×6×6 cube with axis step 51 exactly as the claim's
formulas state; 232–255 the grayscale ramp `8 + (N − 232) · 10`; and index
21 yields pure blue, also through the full `38;5;21` pipeline. -/
theorem ansi256_resolution :
    (∀ N : ℕ, N < 16 → ansi256ToRgb N = ANSI_COLORS.getD N 0) ∧
    (∀ N : ℕ, 16 ≤ N → N ≤ 231 → ansi256ToRgb N =
      IM_COL32 ((N - 16) / 36 * 51) ((N - 16) % 36 / 6 * 51)
        ((N - 16) % 6 * 51) 255) ∧
    (∀ N : ℕ, 232 ≤ N → N ≤ 255 → ansi256ToRgb N =
      IM_COL32 (8 + (N - 232) * 10) (8 + (N - 232) * 10)
        (8 + (N - 232) * 10) 255) ∧
    ansi256ToRgb 21 = IM_COL32 0 0 255 255 ∧
    renderAnsiText cfg0 [27, 91, 51, 56, 59, 53, 59, 50, 49, 109, 122] =
      some ([⟨0, 0, IM_COL32 0 0 255 255, [122]⟩], 1, 0) := by
  refine ⟨?_, ?_, ?_, by decide, ?_⟩
  · intro N h; unfold ansi256ToRgb; rw [if_pos h]
  · intro N h1 h2; unfold ansi256ToRgb; rw [if_neg (by omega), if_pos (by omega)]
  · intro N h1 h2; unfold ansi256ToRgb; rw [if_neg (by omega), if_neg (by omega)]
  · have h : renderAnsiText cfg0 [27, 91, 51, 56, 59, 53, 59, 50, 49, 109, 122] =
        some ([⟨0, 0, IM_COL32 0 0 255 255, [122]⟩], 0 + cfg0.measure [122], 0) := rfl
    rw [h]; norm_num [cfg0]

/-- Claim C5 witness: the three range-conditioned formulas evaluated at the
concrete indices 5, 21 and 240. -/
theorem ansi256_resolution_witness :
    ansi256ToRgb 5 = ANSI_COLORS.getD 5 0 ∧
    ansi256ToRgb 21 = IM_COL32 ((21 - 16) / 36 * 51) ((21 - 16) % 36 / 6 * 51)
      ((21 - 16) % 6 * 51) 255 ∧
    ansi256ToRgb 240 = IM_COL32 (8 + (240 - 232) * 10) (8 + (240 - 232) * 10)
      (8 + (240 - 232) * 10) 255 :=
  ⟨ansi256_resolution.1 5 (by decide),
   ansi256_resolution.2.1 21 (by decide) (by decide),
   ansi256_resolution.2.2.1 240 (by decide) (by decide)⟩

/-- Claim C6: a truncated escape sequence is abandoned silently.  For
`"a" ++ ESC ++ "["` exactly one run `"a"` is emitted with the preceding
(default) style and the call returns normally (first conjunct); the
escape-code loop exits at end-of-buffer leaving the style exactly as the
codes parsed so far set it (second conjunct); codes fully parsed before the
truncation point *are* applied — a buffer ending in the digits `"31"`
leaves palette entry 1 as the colour (third conjunct). -/
theorem truncated_escape_abandoned :
    renderAnsiText cfg0 [97, 27, 91] =
      some ([⟨0, 0, DEFAULT_COLOR, [97]⟩], 1, 0) ∧
    (∀ (fuel color : ℕ) (bold : Bool),
      escLoop (fuel + 1) [] color bold = some ([], color, bold)) ∧
    (∀ (fuel color : ℕ) (bold : Bool),
      escLoop (fuel + 2) [51, 49] color bold =
        some ([], ANSI_COLORS.getD 1 0, bold)) := by
  refine ⟨?_, fun _ _ _ => rfl, fun _ _ _ => rfl⟩
  have h : renderAnsiText cfg0 [97, 27, 91] =
      some ([⟨0, 0, DEFAULT_COLOR, [97]⟩], 0 + cfg0.measure [97], 0) := rfl
  rw [h]; norm_num [cfg0]

/-- Claim C8 (counterexample): an emitted run *can* contain a byte below
0x20 — the lone ESC (27) not followed by `[` is passed through into the
span.  For `"a" ++ ESC ++ "b"` the single emitted run is the whole
three-byte span containing byte 27; moreover under a measurement function
giving ESC a nonzero width the pen advances differently than for `"ab"`,
so the lone ESC is not layout-inert either. -/
theorem run_contains_esc_counterexample :
    renderAnsiText cfg0 [97, 27, 98] =
      some ([⟨0, 0, DEFAULT_COLOR, [97, 27, 98]⟩], 3, 0) ∧
    (27 : ℕ) < 32 ∧
    renderAnsiText cfg0 [97, 98] =
      some ([⟨0, 0, DEFAULT_COLOR, [97, 98]⟩], 2, 0) := by
  refine ⟨?_, by decide, ?_⟩
  · have h : renderAnsiText cfg0 [97, 27, 98] =
        some ([⟨0, 0, DEFAULT_COLOR, [97, 27, 98]⟩],
              0 + cfg0.measure [97, 27, 98], 0) := rfl
    rw [h]; norm_num [cfg0]
  · have h : renderAnsiText cfg0 [97, 98] =
        some ([⟨0, 0, DEFAULT_COLOR, [97, 98]⟩], 0 + cfg0.measure [97, 98], 0) := rfl
    rw [h]; norm_num [cfg0]

/-- Claim C10: every parsed 256-colour index from 232 up — with no upper
bound — goes through the grayscale formula `8 + (N − 232) · 10` unclamped;
index 300 yields channel value 688 > 255, handed to the colour packer
`IM_COL32` (which then wraps in 32-bit arithmetic), and the `38;5;300`
pipeline indeed emits that packed colour instead of ignoring the code. -/
theorem ansi256_grayscale_unclamped :
    (∀ N : ℕ, 232 ≤ N → ansi256ToRgb N =
      IM_COL32 (8 + (N - 232) * 10) (8 + (N - 232) * 10)
        (8 + (N - 232) * 10) 255) ∧
    255 < 8 + (300 - 232) * 10 ∧
    ansi256ToRgb 300 = IM_COL32 688 688 688 255 ∧
    renderAnsiText cfg0 [27, 91, 51, 56, 59, 53, 59, 51, 48, 48, 109, 119] =
      some ([⟨0, 0, IM_COL32 688 688 688 255, [119]⟩], 1, 0) := by
  refine ⟨?_, by decide, by decide, ?_⟩
  · intro N h; unfold ansi256ToRgb; rw [if_neg (by omega), if_neg (by omega)]
  · have h : renderAnsiText cfg0 [27, 91, 51, 56, 59, 53, 59, 51, 48, 48, 109, 119] =
        some ([⟨0, 0, IM_COL32 688 688 688 255, [119]⟩], 0 + cfg0.measure [119], 0) := rfl
    rw [h]; norm_num [cfg0]

/-- Claim C10 witness: the unclamped grayscale formula applied at the
out-of-range index 300. -/
theorem ansi256_grayscale_unclamped_witness :
    ansi256ToRgb 300 = IM_COL32 (8 + (300 - 232) * 10) (8 + (300 - 232) * 10)
      (8 + (300 - 232) * 10) 255 :=
  ansi256_grayscale_unclamped.1 300 (by decide)

end Console

namespace Console

/-! ### Inductive lemmas: escape-free, control-free inputs (claim C4) -/

theorem segLoop_clean (cfg : Cfg) (color : ℕ) :
    ∀ (l pending : List ℕ) (x y : ℚ), (∀ b ∈ l, 32 ≤ b) →
      segLoop cfg color l pending x y =
        ((flushRun cfg color (pending ++ l) x y).1,
         (flushRun cfg color (pending ++ l) x y).2, y) := by
  intro l
  induction l with
  | nil => intro pending x y _; simp [segLoop]
  | cons b rest ih =>
    intro pending x y h
    have hb : 32 ≤ b := h b (List.mem_cons_self _ _)
    simp only [segLoop]
    rw [if_neg (by omega), if_neg (by omega), if_neg (by omega), if_neg (by omega),
        if_neg (by omega : ¬(b < 32 ∧ b ≠ 27))]
    rw [ih (pending ++ [b]) x y (fun c hc => h c (List.mem_cons_of_mem _ hc))]
    rw [List.append_assoc]
    rfl

theorem mainLoop_clean (cfg : Cfg) (color : ℕ) (bold : Bool) (x y : ℚ) :
    ∀ (rest : List ℕ) (fuel : ℕ) (seg : List ℕ),
      rest.length < fuel → (∀ b ∈ rest, 32 ≤ b) → (∀ b ∈ seg, 32 ≤ b) →
      mainLoop cfg fuel rest seg color bold x y =
        some ((flushRun cfg color (seg ++ rest) x y).1,
              (flushRun cfg color (seg ++ rest) x y).2, y) := by
  intro rest
  induction rest with
  | nil =>
    intro fuel seg hf _ hseg
    obtain ⟨f, rfl⟩ : ∃ f, fuel = f + 1 := ⟨fuel - 1, by omega⟩
    by_cases hs : seg = []
    · subst hs; simp [mainLoop, flushRun]
    · simp only [mainLoop, if_neg hs, List.append_nil]
      rw [segLoop_clean cfg color seg [] x y hseg]
      simp
  | cons b rest ih =>
    intro fuel seg hf hrest hseg
    obtain ⟨f, rfl⟩ : ∃ f, fuel = f + 1 := ⟨fuel - 1, by omega⟩
    have hb : 32 ≤ b := hrest b (List.mem_cons_self _ _)
    have hne : ¬(b = 27 ∧ rest.head? = some 91) := by rintro ⟨rfl, _⟩; omega
    simp only [mainLoop, if_neg hne]
    rw [ih f (seg ++ [b]) (by simp at hf ⊢; omega)
        (fun c hc => hrest c (List.mem_cons_of_mem _ hc))
        (by intro c hc
            rcases List.mem_append.mp hc with h | h
            · exact hseg c h
            · simp at h; omega)]
    rw [List.append_assoc]
    rfl

/-- Claim C4 (amended): for every *nonempty* input with no ESC byte and no
control character (every byte at least 0x20), the engine emits exactly one
run: the whole input, at the caller-supplied origin, with the default style;
the final pen is one run-width to the right of the origin. -/
theorem plain_text_single_run (cfg : Cfg) (input : List ℕ)
    (hne : input ≠ []) (hclean : ∀ b ∈ input, 32 ≤ b) :
    renderAnsiText cfg input =
      some ([⟨cfg.startX, cfg.startY, DEFAULT_COLOR, input⟩],
            cfg.startX + cfg.measure input, cfg.startY) := by
  unfold renderAnsiText
  rw [mainLoop_clean cfg DEFAULT_COLOR false cfg.startX cfg.startY input
        (input.length + 1) [] (by omega) hclean (by simp)]
  have hflush : flushRun cfg DEFAULT_COLOR input cfg.startX cfg.startY =
      ([⟨cfg.startX, cfg.startY, DEFAULT_COLOR, input⟩],
       cfg.startX + cfg.measure input) := by
    unfold flushRun; rw [if_neg hne]
  have hlast : ∀ c, input.getLast? = some c → 32 ≤ c :=
    fun c hc => hclean c (getLast?_mem_list hc)
  have h10 : input.getLast? ≠ some 10 := fun h => by have := hlast 10 h; omega
  have h13 : input.getLast? ≠ some 13 := fun h => by have := hlast 13 h; omega
  simp only [List.nil_append, hflush, Option.map_some']
  unfold endCorrect
  rw [if_neg h10, if_neg h13]

/-- Claim C4 witness: the single-byte input `"a"` under the concrete
configuration. -/
theorem plain_text_single_run_witness :
    renderAnsiText cfg0 [97] =
      some ([⟨cfg0.startX, cfg0.startY, DEFAULT_COLOR, [97]⟩],
            cfg0.startX + cfg0.measure [97], cfg0.startY) :=
  plain_text_single_run cfg0 [97] (by decide) (by decide)

end Console

namespace Console

/-! ### Inductive lemmas: pen x never regresses below the origin (claim C7) -/

theorem flushRun_x_le (cfg : Cfg) (hm : ∀ s, 0 ≤ cfg.measure s)
    (color : ℕ) (pending : List ℕ) (x y : ℚ) :
    x ≤ (flushRun cfg color pending x y).2 := by
  unfold flushRun
  split_ifs
  · exact le_refl x
  · exact le_add_of_nonneg_right (hm pending)

theorem flushRun_run_x (cfg : Cfg) (color : ℕ) (pending : List ℕ) (x y : ℚ) :
    ∀ r ∈ (flushRun cfg color pending x y).1, r.x = x := by
  unfold flushRun
  split_ifs
  · intro r hr; simp at hr
  · intro r hr
    rcases List.mem_singleton.mp hr with rfl
    rfl

theorem tabStop_nonneg (col w : ℚ) (hc : 0 ≤ col) (hw : 0 ≤ w) :
    0 ≤ ((truncQ (col / w) + 1 : ℤ) : ℚ) * w := by
  have hq : 0 ≤ col / w := div_nonneg hc hw
  have h1 : 0 ≤ truncQ (col / w) := by
    unfold truncQ
    rw [if_neg (not_lt.mpr hq)]
    exact Int.floor_nonneg.mpr hq
  have h2 : (0 : ℚ) ≤ ((truncQ (col / w) + 1 : ℤ) : ℚ) := by
    have h3 : (0 : ℤ) ≤ truncQ (col / w) + 1 := by omega
    exact_mod_cast h3
  exact mul_nonneg h2 hw

theorem segLoop_x (cfg : Cfg) (hm : ∀ s, 0 ≤ cfg.measure s) (color : ℕ) :
    ∀ (l pending : List ℕ) (x y : ℚ), cfg.startX ≤ x →
      cfg.startX ≤ (segLoop cfg color l pending x y).2.1 ∧
      ∀ r ∈ (segLoop cfg color l pending x y).1, cfg.startX ≤ r.x := by
  intro l
  induction l with
  | nil =>
    intro pending x y hx
    simp only [segLoop]
    refine ⟨le_trans hx (flushRun_x_le cfg hm color pending x y), ?_⟩
    intro r hr
    rw [flushRun_run_x cfg color pending x y r hr]
    exact hx
  | cons b rest ih =>
    intro pending x y hx
    have hflush := flushRun_x_le cfg hm color pending x y
    simp only [segLoop]
    split_ifs with h1 h2 h3 h4 h5
    · -- newline
      refine ⟨(ih [] cfg.startX (y + cfg.lineHeight) (le_refl _)).1, ?_⟩
      intro r hr
      rcases List.mem_append.mp hr with hrf | hrn
      · rw [flushRun_run_x cfg color pending x y r hrf]; exact hx
      · exact (ih [] cfg.startX (y + cfg.lineHeight) (le_refl _)).2 r hrn
    · -- carriage return
      refine ⟨(ih [] cfg.startX y (le_refl _)).1, ?_⟩
      intro r hr
      rcases List.mem_append.mp hr with hrf | hrn
      · rw [flushRun_run_x cfg color pending x y r hrf]; exact hx
      · exact (ih [] cfg.startX y (le_refl _)).2 r hrn
    · -- tab
      have hts := tabStop_nonneg ((flushRun cfg color pending x y).2 - cfg.startX)
        (cfg.measure [65] * 8) (by linarith) (mul_nonneg (hm [65]) (by norm_num))
      have hnew : cfg.startX ≤ cfg.startX +
          ((truncQ (((flushRun cfg color pending x y).2 - cfg.startX) /
            (cfg.measure [65] * 8)) + 1 : ℤ) : ℚ) * (cfg.measure [65] * 8) :=
        le_add_of_nonneg_right hts
      refine ⟨(ih [] _ y hnew).1, ?_⟩
      intro r hr
      rcases List.mem_append.mp hr with hrf | hrn
      · rw [flushRun_run_x cfg color pending x y r hrf]; exact hx
      · exact (ih [] _ y hnew).2 r hrn
    · -- backspace
      have hnew : cfg.startX ≤
          max cfg.startX ((flushRun cfg color pending x y).2 - cfg.measure [65]) :=
        le_max_left _ _
      refine ⟨(ih [] _ y hnew).1, ?_⟩
      intro r hr
      rcases List.mem_append.mp hr with hrf | hrn
      · rw [flushRun_run_x cfg color pending x y r hrf]; exact hx
      · exact (ih [] _ y hnew).2 r hrn
    · -- other control characters
      have hnew : cfg.startX ≤ (flushRun cfg color pending x y).2 :=
        le_trans hx hflush
      refine ⟨(ih [] _ y hnew).1, ?_⟩
      intro r hr
      rcases List.mem_append.mp hr with hrf | hrn
      · rw [flushRun_run_x cfg color pending x y r hrf]; exact hx
      · exact (ih [] _ y hnew).2 r hrn
    · -- ordinary byte
      exact ih (pending ++ [b]) x y hx

theorem mainLoop_x (cfg : Cfg) (hm : ∀ s, 0 ≤ cfg.measure s) :
    ∀ (fuel : ℕ) (rest seg : List ℕ) (color : ℕ) (bold : Bool) (x y : ℚ)
      (runs : List Run) (x' y' : ℚ), cfg.startX ≤ x →
      mainLoop cfg fuel rest seg color bold x y = some (runs, x', y') →
      cfg.startX ≤ x' ∧ ∀ r ∈ runs, cfg.startX ≤ r.x := by
  intro fuel
  induction fuel with
  | zero =>
    intro rest seg color bold x y runs x' y' _ h
    exact absurd h (by simp [mainLoop])
  | succ f ih =>
    intro rest seg color bold x y runs x' y' hx h
    rcases rest with _ | ⟨b, rest'⟩
    · simp only [mainLoop] at h
      by_cases hs : seg = []
      · rw [if_pos hs] at h
        injection h with h'
        obtain ⟨rfl, rfl, rfl⟩ : [] = runs ∧ x = x' ∧ y = y' := by
          exact ⟨congrArg (fun p => p.1) h', congrArg (fun p => p.2.1) h',
                 congrArg (fun p => p.2.2) h'⟩
        exact ⟨hx, by simp⟩
      · rw [if_neg hs] at h
        injection h with h'
        have hseg := segLoop_x cfg hm color seg [] x y hx
        rw [h'] at hseg
        exact hseg
    · simp only [mainLoop] at h
      by_cases hesc : b = 27 ∧ rest'.head? = some 91
      · rw [if_pos hesc] at h
        rcases hE : escLoop (rest'.tail.length + 1) rest'.tail color bold with _ | s
        · simp only [hE] at h
          exact Option.noConfusion h
        · simp only [hE] at h
          rcases hM : mainLoop cfg f (stripM s.1) [] s.2.1 s.2.2
              (if seg = [] then (([], x, y) : List Run × ℚ × ℚ)
               else segLoop cfg color seg [] x y).2.1
              (if seg = [] then (([], x, y) : List Run × ℚ × ℚ)
               else segLoop cfg color seg [] x y).2.2 with _ | out
          · simp only [hM] at h
            exact Option.noConfusion h
          · simp only [hM] at h
            injection h with h'
            have hfl1 : cfg.startX ≤
                (if seg = [] then (([], x, y) : List Run × ℚ × ℚ)
                 else segLoop cfg color seg [] x y).2.1 := by
              by_cases hs : seg = []
              · rw [if_pos hs]; exact hx
              · rw [if_neg hs]; exact (segLoop_x cfg hm color seg [] x y hx).1
            have hfl2 : ∀ r ∈
                (if seg = [] then (([], x, y) : List Run × ℚ × ℚ)
                 else segLoop cfg color seg [] x y).1, cfg.startX ≤ r.x := by
              by_cases hs : seg = []
              · rw [if_pos hs]; intro r hr; simp at hr
              · rw [if_neg hs]; exact (segLoop_x cfg hm color seg [] x y hx).2
            have hout := ih (stripM s.1) [] s.2.1 s.2.2 _ _ out.1 out.2.1 out.2.2
              hfl1 (by rw [hM])
            obtain ⟨hr1, hr2, hr3⟩ :
                (if seg = [] then (([], x, y) : List Run × ℚ × ℚ)
                 else segLoop cfg color seg [] x y).1 ++ out.1 = runs ∧
                out.2.1 = x' ∧ out.2.2 = y' :=
              ⟨congrArg (fun p => p.1) h', congrArg (fun p => p.2.1) h',
               congrArg (fun p => p.2.2) h'⟩
            subst hr1 hr2 hr3
            refine ⟨hout.1, ?_⟩
            intro r hr
            rcases List.mem_append.mp hr with hrf | hrn
            · exact hfl2 r hrf
            · exact hout.2 r hrn
      · rw [if_neg hesc] at h
        exact ih rest' (seg ++ [b]) color bold x y runs x' y' hx h

/-- Claim C7: assuming the measurement capability returns only nonnegative
widths, the pen's x-coordinate never goes below the caller-supplied origin x:
the final pen x and the x-position of every emitted run are at least
`cfg.startX` (backspace clamps at the line start; tab stops, run advances and
line starts never move left of it). -/
theorem pen_x_never_below_origin (cfg : Cfg) (hm : ∀ s, 0 ≤ cfg.measure s)
    (input : List ℕ) (runs : List Run) (x y : ℚ)
    (h : renderAnsiText cfg input = some (runs, x, y)) :
    cfg.startX ≤ x ∧ ∀ r ∈ runs, cfg.startX ≤ r.x := by
  unfold renderAnsiText at h
  rcases hM : mainLoop cfg (input.length + 1) input [] DEFAULT_COLOR false
      cfg.startX cfg.startY with _ | out
  · rw [hM] at h; exact absurd h (by simp)
  · rw [hM] at h
    simp only [Option.map_some'] at h
    injection h with h'
    have base := mainLoop_x cfg hm (input.length + 1) input [] DEFAULT_COLOR false
      cfg.startX cfg.startY out.1 out.2.1 out.2.2 (le_refl _) (by rw [hM])
    have hruns : out.1 = runs := congrArg (fun p => p.1) h'
    have hxy : endCorrect cfg input out.2.1 out.2.2 = (x, y) :=
      congrArg (fun p => p.2) h'
    have hx1 : (endCorrect cfg input out.2.1 out.2.2).1 = x := by rw [hxy]
    have hec : (endCorrect cfg input out.2.1 out.2.2).1 = cfg.startX ∨
        (endCorrect cfg input out.2.1 out.2.2).1 = out.2.1 := by
      unfold endCorrect; split_ifs <;> simp
    constructor
    · rcases hec with he | he
      · rw [← hx1, he]
      · rw [← hx1, he]; exact base.1
    · intro r hr
      exact base.2 r (by rwa [hruns])

/-- Claim C7 witness: the single-byte input `"a"` under the concrete
configuration, whose measurement function (span length) is nonnegative. -/
theorem pen_x_never_below_origin_witness :
    cfg0.startX ≤ 0 + cfg0.measure [97] ∧
    ∀ r ∈ [(⟨0, 0, DEFAULT_COLOR, [97]⟩ : Run)], cfg0.startX ≤ r.x :=
  pen_x_never_below_origin cfg0 (fun _ => Nat.cast_nonneg _) [97]
    [⟨0, 0, DEFAULT_COLOR, [97]⟩] (0 + cfg0.measure [97]) 0 rfl

end Console

namespace Console

/-! ### Inductive lemmas: emitted spans and escape boundaries (claim C8) -/

theorem noEB_append_left {l₁ l₂ : List ℕ} (h : noEB (l₁ ++ l₂)) : noEB l₁ :=
  (List.chain'_append.mp h).1

theorem noEB_append_right {l₁ l₂ : List ℕ} (h : noEB (l₁ ++ l₂)) : noEB l₂ :=
  (List.chain'_append.mp h).2.1

theorem segLoop_spans (cfg : Cfg) (color : ℕ) :
    ∀ (l pending : List ℕ) (x y : ℚ),
      noEB (pending ++ l) → (∀ b ∈ pending, okByte b) →
      ∀ r ∈ (segLoop cfg color l pending x y).1,
        (∀ b ∈ r.text, okByte b) ∧ noEB r.text := by
  intro l
  induction l with
  | nil =>
    intro pending x y hn hok r hr
    simp only [segLoop] at hr
    unfold flushRun at hr
    split_ifs at hr
    · simp at hr
    · rcases List.mem_singleton.mp hr with rfl
      exact ⟨hok, by rw [List.append_nil] at hn; exact hn⟩
  | cons b rest ih =>
    intro pending x y hn hok r hr
    have hpend : noEB pending := noEB_append_left hn
    have hrest : noEB rest := by
      have := noEB_append_right hn
      exact List.Chain'.tail this
    have hfl : r ∈ (flushRun cfg color pending x y).1 →
        (∀ c ∈ r.text, okByte c) ∧ noEB r.text := by
      intro hrf
      unfold flushRun at hrf
      split_ifs at hrf
      · simp at hrf
      · rcases List.mem_singleton.mp hrf with rfl
        exact ⟨hok, hpend⟩
    simp only [segLoop] at hr
    split_ifs at hr with h1 h2 h3 h4 h5
    · rcases List.mem_append.mp hr with hrf | hrn
      · exact hfl hrf
      · exact ih [] _ _ (by simpa using hrest) (by simp) r hrn
    · rcases List.mem_append.mp hr with hrf | hrn
      · exact hfl hrf
      · exact ih [] _ _ (by simpa using hrest) (by simp) r hrn
    · rcases List.mem_append.mp hr with hrf | hrn
      · exact hfl hrf
      · exact ih [] _ _ (by simpa using hrest) (by simp) r hrn
    · rcases List.mem_append.mp hr with hrf | hrn
      · exact hfl hrf
      · exact ih [] _ _ (by simpa using hrest) (by simp) r hrn
    · rcases List.mem_append.mp hr with hrf | hrn
      · exact hfl hrf
      · exact ih [] _ _ (by simpa using hrest) (by simp) r hrn
    · refine ih (pending ++ [b]) x y ?_ ?_ r hr
      · rw [List.append_assoc]; exact hn
      · intro c hc
        rcases List.mem_append.mp hc with h | h
        · exact hok c h
        · rcases List.mem_singleton.mp h with rfl
          unfold okByte; omega

theorem mainLoop_spans (cfg : Cfg) :
    ∀ (fuel : ℕ) (rest seg : List ℕ) (color : ℕ) (bold : Bool) (x y : ℚ)
      (runs : List Run) (x' y' : ℚ),
      noEB seg →
      (seg.getLast? = some 27 → rest.head? ≠ some 91) →
      mainLoop cfg fuel rest seg color bold x y = some (runs, x', y') →
      ∀ r ∈ runs, (∀ b ∈ r.text, okByte b) ∧ noEB r.text := by
  intro fuel
  induction fuel with
  | zero =>
    intro rest seg color bold x y runs x' y' _ _ h
    simp only [mainLoop] at h
    exact Option.noConfusion h
  | succ f ih =>
    intro rest seg color bold x y runs x' y' hnE hjunc h r hr
    rcases rest with _ | ⟨b, rest'⟩
    · simp only [mainLoop] at h
      by_cases hs : seg = []
      · rw [if_pos hs] at h
        injection h with h'
        have hruns : ([] : List Run) = runs := congrArg (fun p => p.1) h'
        rw [← hruns] at hr
        simp at hr
      · rw [if_neg hs] at h
        injection h with h'
        have hruns : (segLoop cfg color seg [] x y).1 = runs :=
          congrArg (fun p => p.1) h'
        refine segLoop_spans cfg color seg [] x y (by simpa using hnE) (by simp) r ?_
        rw [hruns]; exact hr
    · simp only [mainLoop] at h
      by_cases hesc : b = 27 ∧ rest'.head? = some 91
      · rw [if_pos hesc] at h
        rcases hE : escLoop (rest'.tail.length + 1) rest'.tail color bold with _ | s
        · simp only [hE] at h; exact Option.noConfusion h
        · simp only [hE] at h
          rcases hM : mainLoop cfg f (stripM s.1) [] s.2.1 s.2.2
              (if seg = [] then (([], x, y) : List Run × ℚ × ℚ)
               else segLoop cfg color seg [] x y).2.1
              (if seg = [] then (([], x, y) : List Run × ℚ × ℚ)
               else segLoop cfg color seg [] x y).2.2 with _ | out
          · simp only [hM] at h; exact Option.noConfusion h
          · simp only [hM] at h
            injection h with h'
            have hruns : (if seg = [] then (([], x, y) : List Run × ℚ × ℚ)
                else segLoop cfg color seg [] x y).1 ++ out.1 = runs :=
              congrArg (fun p => p.1) h'
            rw [← hruns] at hr
            rcases List.mem_append.mp hr with hrf | hrn
            · by_cases hs : seg = []
              · rw [if_pos hs] at hrf; simp at hrf
              · rw [if_neg hs] at hrf
                exact segLoop_spans cfg color seg [] x y (by simpa using hnE)
                  (by simp) r hrf
            · exact ih (stripM s.1) [] s.2.1 s.2.2 _ _ out.1 out.2.1 out.2.2
                List.chain'_nil (by simp) (by rw [hM]) r hrn
      · rw [if_neg hesc] at h
        refine ih rest' (seg ++ [b]) color bold x y runs x' y' ?_ ?_ h r hr
        · refine List.chain'_append.mpr ⟨hnE, List.chain'_singleton b, ?_⟩
          intro a ha c hc
          rcases List.mem_singleton.mp (by simpa using hc) with rfl
          rintro ⟨ha27, hc91⟩
          subst ha27
          exact hjunc (by simpa using ha) (by simp [hc91])
        · intro hlast
          rw [List.getLast?_concat] at hlast
          injection hlast with hb27
          subst hb27
          intro h91
          exact hesc ⟨rfl, h91⟩

/-- Claim C8 (amended): every emitted run's byte span contains only bytes
that are at least 0x20 or the lone ESC byte 27 (all other control bytes are
split out), and the span never contains an ESC immediately followed by `[` —
a run never crosses an escape-sequence boundary.  The lone ESC *is* passed
through into the span (see `run_contains_esc_counterexample`, which also
shows the span including the ESC is what gets measured). -/
theorem run_spans_no_control_except_esc (cfg : Cfg) (input : List ℕ)
    (runs : List Run) (x y : ℚ)
    (h : renderAnsiText cfg input = some (runs, x, y)) :
    ∀ r ∈ runs, (∀ b ∈ r.text, okByte b) ∧ noEB r.text := by
  unfold renderAnsiText at h
  rcases hM : mainLoop cfg (input.length + 1) input [] DEFAULT_COLOR false
      cfg.startX cfg.startY with _ | out
  · rw [hM] at h; exact Option.noConfusion h
  · rw [hM] at h
    simp only [Option.map_some'] at h
    injection h with h'
    have hruns : out.1 = runs := congrArg (fun p => p.1) h'
    intro r hr
    exact mainLoop_spans cfg (input.length + 1) input [] DEFAULT_COLOR false
      cfg.startX cfg.startY out.1 out.2.1 out.2.2 List.chain'_nil (by simp)
      (by rw [hM]) r (by rwa [hruns])

/-- Claim C8 witness: the single run emitted for `"x"` contains only
printable or ESC bytes and no escape boundary — instantiated at its one
byte 120. -/
theorem run_spans_witness :
    okByte 120 ∧ noEB [120] :=
  ⟨(run_spans_no_control_except_esc cfg0 [120] [⟨0, 0, DEFAULT_COLOR, [120]⟩]
      (0 + cfg0.measure [120]) 0 rfl ⟨0, 0, DEFAULT_COLOR, [120]⟩
      (List.mem_singleton.mpr rfl)).1 120 (List.mem_singleton.mpr rfl),
   (run_spans_no_control_except_esc cfg0 [120] [⟨0, 0, DEFAULT_COLOR, [120]⟩]
      (0 + cfg0.measure [120]) 0 rfl ⟨0, 0, DEFAULT_COLOR, [120]⟩
      (List.mem_singleton.mpr rfl)).2⟩

end Console

namespace Console

/-! ### Bold flag never reaches the sink (claim C2) -/

set_option maxHeartbeats 1000000 in
theorem escBody_bold_indep (rest : List ℕ) (color : ℕ) (b₁ b₂ : Bool) :
    (escBody rest color b₁).1 = (escBody rest color b₂).1 ∧
    (escBody rest color b₁).2.1 = (escBody rest color b₂).2.1 := by
  unfold escBody
  generalize parseAnsiCode rest 0 = p
  obtain ⟨code, r1⟩ := p
  dsimp only
  generalize parseAnsiCode r1.tail 0 = p3
  obtain ⟨ty, r3⟩ := p3
  dsimp only
  generalize parseAnsiCode r3.tail 0 = p4
  obtain ⟨rr, r4⟩ := p4
  dsimp only
  generalize parseAnsiCode r4.tail 0 = p6
  obtain ⟨gg, r6⟩ := p6
  dsimp only
  generalize parseAnsiCode r6.tail 0 = p7
  obtain ⟨bb, r7⟩ := p7
  dsimp only
  by_cases h0 : code = 0
  · rw [if_pos h0, if_pos h0]; exact ⟨rfl, rfl⟩
  rw [if_neg h0, if_neg h0]
  by_cases h1 : code = 1
  · rw [if_pos h1, if_pos h1]; exact ⟨rfl, rfl⟩
  rw [if_neg h1, if_neg h1]
  by_cases h22 : code = 22
  · rw [if_pos h22, if_pos h22]; exact ⟨rfl, rfl⟩
  rw [if_neg h22, if_neg h22]
  by_cases h30 : 30 ≤ code ∧ code ≤ 37
  · rw [if_pos h30, if_pos h30]; exact ⟨rfl, rfl⟩
  rw [if_neg h30, if_neg h30]
  by_cases h90 : 90 ≤ code ∧ code ≤ 97
  · rw [if_pos h90, if_pos h90]; exact ⟨rfl, rfl⟩
  rw [if_neg h90, if_neg h90]
  by_cases h38 : code = 38 ∧ r1.head? = some 59
  · rw [if_pos h38, if_pos h38]
    by_cases h5 : ty = 5 ∧ r3.head? = some 59
    · rw [if_pos h5, if_pos h5]; exact ⟨rfl, rfl⟩
    rw [if_neg h5, if_neg h5]
    by_cases h2 : ty = 2
    · rw [if_pos h2, if_pos h2]
      by_cases hs3 : r3.head? = some 59
      · rw [if_pos hs3, if_pos hs3]
        by_cases hs4 : r4.head? = some 59
        · rw [if_pos hs4, if_pos hs4]
          by_cases hs6 : r6.head? = some 59
          · rw [if_pos hs6, if_pos hs6]; exact ⟨rfl, rfl⟩
          rw [if_neg hs6, if_neg hs6]; exact ⟨rfl, rfl⟩
        rw [if_neg hs4, if_neg hs4]; exact ⟨rfl, rfl⟩
      rw [if_neg hs3, if_neg hs3]; exact ⟨rfl, rfl⟩
    rw [if_neg h2, if_neg h2]; exact ⟨rfl, rfl⟩
  rw [if_neg h38, if_neg h38]; exact ⟨rfl, rfl⟩

theorem escLoop_bold_indep :
    ∀ (fuel : ℕ) (rest : List ℕ) (color : ℕ) (b₁ b₂ : Bool),
      (escLoop fuel rest color b₁).map (fun t => (t.1, t.2.1)) =
      (escLoop fuel rest color b₂).map (fun t => (t.1, t.2.1)) := by
  intro fuel
  induction fuel with
  | zero => intro rest color b₁ b₂; rfl
  | succ f ih =>
    intro rest color b₁ b₂
    rcases rest with _ | ⟨b, rest'⟩
    · rfl
    · simp only [escLoop]
      by_cases hb : b = 109
      · simp only [if_pos hb]; rfl
      · simp only [if_neg hb]
        obtain ⟨h1, h2⟩ := escBody_bold_indep (b :: rest') color b₁ b₂
        rw [h1, h2]
        exact ih (escBody (b :: rest') color b₂).1 (escBody (b :: rest') color b₂).2.1
          (escBody (b :: rest') color b₁).2.2 (escBody (b :: rest') color b₂).2.2

/-- Claim C2 (amended): the sink receives the absolute pen position, the
byte span and the resolved colour only — the bold flag is tracked by the
parser state (SGR codes 1 and 22 flip it) but is never passed to the sink:
the entire observable result of the scan (every emitted run and the final
pen position) is independent of the bold state.  Together with
`bold_not_forwarded_counterexample` this settles that the claim's
"bold flag is passed to the sink on every run emission" does not hold. -/
theorem runs_independent_of_bold (cfg : Cfg) :
    ∀ (fuel : ℕ) (rest seg : List ℕ) (color : ℕ) (b₁ b₂ : Bool) (x y : ℚ),
      mainLoop cfg fuel rest seg color b₁ x y =
      mainLoop cfg fuel rest seg color b₂ x y := by
  intro fuel
  induction fuel with
  | zero => intro rest seg color b₁ b₂ x y; rfl
  | succ f ih =>
    intro rest seg color b₁ b₂ x y
    rcases rest with _ | ⟨b, rest'⟩
    · rfl
    · simp only [mainLoop]
      by_cases hesc : b = 27 ∧ rest'.head? = some 91
      · simp only [if_pos hesc]
        have hmap := escLoop_bold_indep (rest'.tail.length + 1) rest'.tail color b₁ b₂
        rcases hE1 : escLoop (rest'.tail.length + 1) rest'.tail color b₁ with _ | s₁
        · rcases hE2 : escLoop (rest'.tail.length + 1) rest'.tail color b₂ with _ | s₂
          · simp only [hE1, hE2]
          · rw [hE1, hE2] at hmap; simp at hmap
        · rcases hE2 : escLoop (rest'.tail.length + 1) rest'.tail color b₂ with _ | s₂
          · rw [hE1, hE2] at hmap; simp at hmap
          · rw [hE1, hE2] at hmap
            simp only [Option.map_some', Option.some.injEq] at hmap
            have hs1 : s₁.1 = s₂.1 := congrArg (fun p => p.1) hmap
            have hs2 : s₁.2.1 = s₂.2.1 := congrArg (fun p => p.2) hmap
            simp only [hE1, hE2]
            rw [hs1, hs2]
            simp only [ih (stripM s₂.1) [] s₂.2.1 s₁.2.2 s₂.2.2]
      · simp only [if_neg hesc]
        exact ih rest' (seg ++ [b]) color b₁ b₂ x y

/-! ### End-of-buffer cursor correction (claim C9) -/

/-- Claim C9: after the whole buffer is consumed by the scan (which
returned runs `runs` and pen `(x, y)`), the end-of-buffer correction is
applied to the final pen position only — the emitted runs are returned
unchanged (first conjunct) — and it acts exactly as claimed: a final `\n`
resets pen x to the line start and advances pen y by one line height unless
that `\n` is the second byte of a final `\r\n` pair, in which case only x is
reset; a final `\r` resets x with no y change; otherwise the pen is
untouched. -/
theorem end_of_buffer_correction (cfg : Cfg) (input : List ℕ)
    (runs : List Run) (x y : ℚ)
    (h : mainLoop cfg (input.length + 1) input [] DEFAULT_COLOR false
          cfg.startX cfg.startY = some (runs, x, y)) :
    renderAnsiText cfg input = some (runs, endCorrect cfg input x y) ∧
    (input.getLast? = some 10 →
      (input.length = 1 ∨ input.dropLast.getLast? ≠ some 13) →
      endCorrect cfg input x y = (cfg.startX, y + cfg.lineHeight)) ∧
    (input.getLast? = some 10 → input.length ≠ 1 →
      input.dropLast.getLast? = some 13 →
      endCorrect cfg input x y = (cfg.startX, y)) ∧
    (input.getLast? = some 13 →
      endCorrect cfg input x y = (cfg.startX, y)) ∧
    (input.getLast? ≠ some 10 → input.getLast? ≠ some 13 →
      endCorrect cfg input x y = (x, y)) := by
  refine ⟨?_, ?_, ?_, ?_, ?_⟩
  · unfold renderAnsiText; rw [h]; rfl
  · intro h10 hcond; unfold endCorrect; rw [if_pos h10, if_pos hcond]
  · intro h10 hlen h13; unfold endCorrect
    rw [if_pos h10, if_neg (by push_neg; exact ⟨hlen, h13⟩)]
  · intro h13; unfold endCorrect
    rw [if_neg (by rw [h13]; decide), if_pos h13]
  · intro h10 h13; unfold endCorrect; rw [if_neg h10, if_neg h13]

/-- Claim C9 witness: input `"\n"`; the scan ends with pen
`(line start, one line down)` and the correction is then applied to the pen
while the (empty) run list is returned unchanged. -/
theorem end_of_buffer_correction_witness :
    renderAnsiText cfg0 [10] =
      some ([], endCorrect cfg0 [10] 0 (0 + cfg0.lineHeight)) :=
  (end_of_buffer_correction cfg0 [10] [] 0 (0 + cfg0.lineHeight) rfl).1

end Console
